import Mathlib

/-!
Verification development for the honeypot-scanner script
(src/honeypot-scanner.ts).  Text is modelled as `List Char`; JavaScript
string operations (`includes`, `startsWith`, `toLowerCase`, `trim`) are
modelled by the corresponding list operations on characters.
-/

/-- Text, modelled as a list of characters. -/
abbrev Str := List Char

/-! ## Fingerprint verification (Scanner.checkSourceCode, lines 124-138) -/

/-- The fixed fingerprint substrings (src lines 11-16). -/
def FINGERPRINTS : List Str :=
  ["responseHash".toList, "function Try(string".toList,
   "function Start(".toList, "isAdmin".toList]

/-- One element of the `result` array of a `getsourcecode` response.
`SourceCode = []` models a missing or empty (hence JS-falsy) source text,
`ContractName = []` a missing or empty contract name. -/
structure SourceEntry where
  SourceCode : Str
  ContractName : Str
deriving DecidableEq

/-- A `getsourcecode` API response: the `status` field and the `result`
array (an empty list models a response whose `result[0]` is absent). -/
structure SourceResponse where
  status : Str
  result : List SourceEntry
deriving DecidableEq

/-- JS `name || "Unknown"`: fall back to "Unknown" when the name is
falsy (missing or empty). -/
def orUnknown (n : Str) : Str := if n = [] then "Unknown".toList else n

/-- JS `s.includes(fp)`: `fp` occurs as a literal, case-sensitive
substring of `s` (true at some suffix of `s`, `fp` is a prefix). -/
def includes (fp : Str) : Str → Bool
  | [] => fp.isPrefixOf ([] : Str)
  | c :: rest => fp.isPrefixOf (c :: rest) || includes fp rest

/-- Embedding of `Scanner.checkSourceCode` (src lines 124-138): on a
status-1 response whose first result entry has a (truthy) source text,
require every fingerprint to occur as a literal substring; on a full
match return the reported contract name with the "Unknown" fallback,
otherwise return `none`. -/
def checkSourceCode (res : SourceResponse) : Option Str :=
  if res.status = "1".toList then
    match res.result.head? with
    | some entry =>
      if entry.SourceCode ≠ [] then
        if FINGERPRINTS.all (fun fp => includes fp entry.SourceCode) then
          some (orUnknown entry.ContractName)
        else none
      else none
    | none => none
  else none

/-- The spec-side notion of a fingerprint match: verified source exists
(status 1, a first result entry with nonempty source) and all four
fingerprints occur as literal substrings of the source text. -/
def verifiedMatch (res : SourceResponse) : Prop :=
  res.status = "1".toList ∧
    ∃ e, res.result.head? = some e ∧ e.SourceCode ≠ [] ∧
      ∀ fp ∈ FINGERPRINTS, includes fp e.SourceCode = true

/-- A concrete source text containing all four fingerprints. -/
def srcHit : Str :=
  "x responseHash y function Try(string z function Start( w isAdmin".toList

/-- A concrete source text missing two of the fingerprints. -/
def srcMiss : Str := "responseHash isAdmin".toList

example : checkSourceCode ⟨"1".toList, [⟨srcHit, "Quiz".toList⟩]⟩ =
    some "Quiz".toList := by decide

example : checkSourceCode ⟨"1".toList, [⟨srcMiss, "Quiz".toList⟩]⟩ =
    none := by decide

example : checkSourceCode ⟨"1".toList, [⟨srcHit, []⟩]⟩ =
    some "Unknown".toList := by decide

example : checkSourceCode ⟨"0".toList, [⟨srcHit, "Quiz".toList⟩]⟩ =
    none := by decide

/-- C1: `checkSourceCode` reports a match if and only if the response
carries verified source code (status 1, first result entry, truthy
source text) and all four fixed fingerprints occur as literal,
case-sensitive substrings of that source; on a full match it returns
the reported contract name, falling back to "Unknown" when the name is
absent, and otherwise it reports no match (`none`). -/
theorem checkSourceCode_match_iff (res : SourceResponse) :
    ((checkSourceCode res).isSome ↔ verifiedMatch res) ∧
    (∀ e, res.result.head? = some e → verifiedMatch res →
      checkSourceCode res = some (orUnknown e.ContractName)) := by
  by_cases h1 : res.status = "1".toList
  · cases hh : res.result.head? with
    | none =>
      constructor
      · simp only [checkSourceCode, h1, if_true, hh, Option.isSome_none,
          verifiedMatch]
        simp [hh]
      · intro e he
        exact absurd he (by simp)
    | some e =>
      by_cases h2 : e.SourceCode = []
      · constructor
        · simp only [checkSourceCode, h1, if_true, hh, h2, verifiedMatch]
          simp [hh, h2]
        · rintro e' he' ⟨-, e'', he'', hsc, -⟩
          rw [hh] at he''
          cases he''
          exact absurd h2 hsc
      · by_cases h3 : FINGERPRINTS.all (fun fp => includes fp e.SourceCode) = true
        · have hcs : checkSourceCode res = some (orUnknown e.ContractName) := by
            simp [checkSourceCode, h1, hh, h2, h3]
          constructor
          · rw [hcs]
            simp only [Option.isSome_some, true_iff]
            exact ⟨h1, e, hh, h2, fun fp hfp => by
              rw [List.all_eq_true] at h3; exact h3 fp hfp⟩
          · intro e' he' _
            injection he' with hee
            rw [← hee]
            exact hcs
        · have hcs : checkSourceCode res = none := by
            simp [checkSourceCode, h1, hh, h2, h3]
          constructor
          · rw [hcs]
            simp only [Option.isSome_none, Bool.false_eq_true, false_iff]
            rintro ⟨-, e'', he'', -, hfp⟩
            rw [hh] at he''
            cases he''
            exact h3 (by rw [List.all_eq_true]; exact fun fp h => hfp fp h)
          · rintro e' he' ⟨-, e'', he'', -, hfp⟩
            rw [hh] at he''
            cases he''
            exact absurd (by rw [List.all_eq_true]; exact fun fp h => hfp fp h) h3
  · constructor
    · simp only [checkSourceCode, h1, if_false, Option.isSome_none,
        verifiedMatch]
      simp [h1]
    · rintro e he ⟨hs, -⟩
      exact absurd hs h1

/-- A concrete response with verified source containing all four
fingerprints. -/
def resHit : SourceResponse := ⟨"1".toList, [⟨srcHit, "Quiz".toList⟩]⟩

/-! ## API requests (Scanner.request, lines 58-72)

The body of `Scanner.request` builds the URL, then performs a single
`fetch` inside one try/catch: a successful fetch has its JSON body
returned as-is (after a fixed 250ms rate-limit sleep), and a thrown
error is caught and turned into the benign value with status "0".
There is no loop and no inspection of the response status.  We model
the network as a list of per-fetch outcomes (`none` = the fetch or the
JSON parse throws); a call to `request` consumes outcomes from the
front, and we also return how many fetch attempts the body made. -/

/-- An API response, abstracted to the field the retry claim is about. -/
structure ApiResp where
  status : Str
deriving DecidableEq

/-- The benign failure value returned from the catch branch,
JS `{ status: "0" }`. -/
def failResp : ApiResp := ⟨"0".toList⟩

/-- Embedding of `Scanner.request`: exactly one fetch; its outcome is
returned as-is on success and replaced by `failResp` when it throws.
The second component counts the fetch attempts made. -/
def request (fetches : List (Option ApiResp)) : ApiResp × Nat :=
  match fetches with
  | [] => (failResp, 0)
  | some r :: _ => (r, 1)
  | none :: _ => (failResp, 1)

/-- Formalisation of the retry policy the spec describes (it is not in
the source): up to 3 attempts; an attempt whose response has an OK
status (status "1") returns that response; a thrown fetch or a not-OK
status consumes the attempt and retries; exhausting the 3 attempts
yields the benign failure value.  Defined only to compare against
`request`. -/
def claimedRetryGo : Nat → Nat → List (Option ApiResp) → ApiResp × Nat
  | 0, used, _ => (failResp, used)
  | _ + 1, used, [] => (failResp, used)
  | fuel + 1, used, f :: rest =>
    match f with
    | some r => if r.status = "1".toList then (r, used + 1)
                else claimedRetryGo fuel (used + 1) rest
    | none => claimedRetryGo fuel (used + 1) rest

/-- The claimed retried request: 3 attempts with the policy above. -/
def claimedRetryRequest (fetches : List (Option ApiResp)) : ApiResp × Nat :=
  claimedRetryGo 3 0 fetches

/-- A network trace whose first fetch yields a not-OK status and whose
second would yield an OK status. -/
def traceNotOkThenOk : List (Option ApiResp) :=
  [some ⟨"0".toList⟩, some ⟨"1".toList⟩]

/-- C2 counterexample: on a trace whose first response has a not-OK
status, the code returns that first response after a single fetch,
while the claimed retry policy would fetch again and return the OK
response of the second attempt; so `request` does not implement the
claimed retry policy. -/
theorem request_counterexample :
    request traceNotOkThenOk = (⟨"0".toList⟩, 1) ∧
    claimedRetryRequest traceNotOkThenOk = (⟨"1".toList⟩, 2) ∧
    request traceNotOkThenOk ≠ claimedRetryRequest traceNotOkThenOk := by
  refine ⟨by decide, by decide, by decide⟩

/-- C2 amended: every API call makes exactly one fetch attempt, with no
retry; a thrown fetch (or JSON parse) error is caught and the call
returns the benign failure value with status "0" instead of aborting
the run, and a response is otherwise returned as-is regardless of its
status. -/
theorem request_single_attempt (fetches : List (Option ApiResp)) :
    (request fetches).2 ≤ 1 ∧
    (∀ r rest, fetches = some r :: rest → request fetches = (r, 1)) ∧
    (∀ rest, fetches = none :: rest → request fetches = (failResp, 1)) := by
  refine ⟨?_, ?_, ?_⟩
  · cases fetches with
    | nil => exact Nat.zero_le 1
    | cons f rest => cases f <;> exact Nat.le_refl 1
  · rintro r rest rfl
    rfl
  · rintro rest rfl
    rfl

/-- Witness for the amended C2 at a concrete trace. -/
theorem request_single_attempt_witness :
    request [none, some ⟨"1".toList⟩] = (failResp, 1) ∧
    (request [none, some ⟨"1".toList⟩]).2 ≤ 1 :=
  ⟨(request_single_attempt [none, some ⟨"1".toList⟩]).2.2
      [some ⟨"1".toList⟩] rfl,
   (request_single_attempt [none, some ⟨"1".toList⟩]).1⟩

/-! ## Candidate discovery block schedule (Scanner.findCandidates,
lines 85-122)

The body computes `startBlock = currentBlock - lookbackBlocks` but uses
it only in a log line; the loop then fetches exactly the blocks
`currentBlock - i` for `i = 0, ..., 9`, one request at a time (each
`request` is awaited before the next loop iteration; there is no
batching and no concurrent fetch). -/

/-- The blocks `findCandidates` fetches, in fetch order.  The
`lookbackBlocks` parameter is taken to show it does not influence the
schedule (the source uses it only for the log line). -/
def scannedBlocks (currentBlock : Nat) (lookbackBlocks : Nat) : List Nat :=
  (List.range 10).map (fun i => currentBlock - i)

/-- C3 counterexample: with a lookback of 50 at current block 100, the
claim says all 50 trailing blocks (in particular block 80) are fetched;
the code fetches only the 10 most recent blocks, so block 80 — inside
the trailing window — is never fetched. -/
theorem scannedBlocks_counterexample :
    (scannedBlocks 100 50).length = 10 ∧
    80 ∉ scannedBlocks 100 50 ∧
    100 - 20 = 80 ∧ 20 < 50 := by
  refine ⟨by decide, by decide, by decide, by decide⟩

/-- C3 amended: `findCandidates` fetches exactly the 10 most-recent
blocks `currentBlock, currentBlock - 1, ..., currentBlock - 9`, one at
a time and in that order, regardless of the lookback parameter, which
only determines the logged start block. -/
theorem scannedBlocks_amended (currentBlock lookbackBlocks : Nat) :
    (∀ lb', scannedBlocks currentBlock lookbackBlocks =
      scannedBlocks currentBlock lb') ∧
    (scannedBlocks currentBlock lookbackBlocks).length = 10 ∧
    (∀ i, i < 10 →
      (scannedBlocks currentBlock lookbackBlocks).get? i =
        some (currentBlock - i)) := by
  refine ⟨fun _ => rfl, by simp [scannedBlocks], ?_⟩
  intro i hi
  simp only [scannedBlocks, List.get?_eq_getElem?, List.getElem?_map,
    List.getElem?_range hi, Option.map_some']

/-- Witness for the amended C3 at concrete inputs. -/
theorem scannedBlocks_amended_witness :
    (scannedBlocks 100 50).length = 10 ∧
    (scannedBlocks 100 50).get? 3 = some 97 :=
  ⟨(scannedBlocks_amended 100 50).2.1,
   (scannedBlocks_amended 100 50).2.2 3 (by decide)⟩

/-! ## Candidate capture (Scanner.findCandidates, lines 103-121)

For every transaction of every fetched block, the loop adds `tx.toAddr` to
the `candidates` set when `tx.toAddr` is truthy and `tx.input` starts with
one of the two selector strings (`startsWith` is case-sensitive in JS);
the `else if` branch for contract creations has an empty body.  The JS
`Set` keyed by exact strings, read back with `Array.from`, is modelled
as first-occurrence-order insertion into a duplicate-free list.  The
nested block/transaction loops are flattened to the list of all
transactions of all fetched blocks in iteration order. -/

/-- A block transaction: `to` is `none` for a contract creation (JS
`null`), and `input` may be absent (the source defaults it to ""). -/
structure Tx where
  toAddr : Option Str
  input : Option Str
deriving DecidableEq

/-- JS truthiness of an optional string: present and nonempty. -/
def jsStrTruthy : Option Str → Bool
  | some s => !s.isEmpty
  | none => false

/-- The selector test from the source:
`input.startsWith("0xc76de3e9") || input.startsWith("0x5f3d328e")`. -/
def selectorHit (input : Str) : Bool :=
  "0xc76de3e9".toList.isPrefixOf input ||
    "0x5f3d328e".toList.isPrefixOf input

/-- Whether the loop body captures this transaction. -/
def txCaptured (tx : Tx) : Bool :=
  jsStrTruthy tx.toAddr && selectorHit (tx.input.getD [])

/-- JS `Set.add` under `Array.from`: append unless already present. -/
def addCandidate (acc : List Str) (a : Str) : List Str :=
  if a ∈ acc then acc else acc ++ [a]

/-- The candidate list produced from the transactions of all fetched
blocks, in iteration order. -/
def collectCandidates (txs : List Tx) : List Str :=
  txs.foldl (fun acc tx =>
    if txCaptured tx then addCandidate acc (tx.toAddr.getD []) else acc) []

/-- The capture condition as the claim states it: the selector
comparison done case-insensitively (lowercasing the call data before
comparing with the lowercase selector strings). -/
def claimedCapture (tx : Tx) : Bool :=
  jsStrTruthy tx.toAddr && selectorHit ((tx.input.getD []).map Char.toLower)

/-- A call whose input is an upper-cased spelling of the first
selector. -/
def txUpper : Tx := ⟨some "0xdead".toList, some "0xC76DE3E9".toList⟩

/-- C4 counterexample: a transaction whose call data is an upper-case
spelling of a known selector satisfies the claimed case-insensitive
capture condition, yet the code (case-sensitive `startsWith`) does not
add its `to` address to the candidates. -/
theorem collectCandidates_counterexample :
    claimedCapture txUpper = true ∧
    jsStrTruthy txUpper.toAddr = true ∧
    collectCandidates [txUpper] = [] := by
  refine ⟨by decide, by decide, by decide⟩

/-- Membership in `addCandidate`. -/
theorem mem_addCandidate (acc : List Str) (a b : Str) :
    b ∈ addCandidate acc a ↔ b ∈ acc ∨ b = a := by
  unfold addCandidate
  split
  · rename_i h
    constructor
    · exact Or.inl
    · rintro (hb | rfl)
      · exact hb
      · exact h
  · simp

/-- `addCandidate` preserves the no-duplicates invariant. -/
theorem nodup_addCandidate (acc : List Str) (a : Str) (h : acc.Nodup) :
    (addCandidate acc a).Nodup := by
  unfold addCandidate
  split
  · exact h
  · rename_i hna
    simpa [List.nodup_append] using ⟨h, hna⟩

/-- The fold step of `collectCandidates`. -/
def candStep (acc : List Str) (tx : Tx) : List Str :=
  if txCaptured tx then addCandidate acc (tx.toAddr.getD []) else acc

/-- Membership after folding `candStep` from an arbitrary accumulator. -/
theorem mem_foldl_candStep (txs : List Tx) (acc : List Str) (a : Str) :
    a ∈ txs.foldl candStep acc ↔
      a ∈ acc ∨ ∃ tx ∈ txs, tx.toAddr = some a ∧ txCaptured tx = true := by
  induction txs generalizing acc with
  | nil => simp
  | cons tx rest ih =>
    rw [List.foldl_cons, ih]
    constructor
    · rintro (hacc | htx)
      · unfold candStep at hacc
        split at hacc
        · rename_i hcap
          rcases (mem_addCandidate _ _ _).1 hacc with h | rfl
          · exact Or.inl h
          · refine Or.inr ⟨tx, List.mem_cons_self _ _, ?_, hcap⟩
            unfold txCaptured jsStrTruthy at hcap
            cases hto : tx.toAddr with
            | none => rw [hto] at hcap; simp at hcap
            | some s => rfl
        · exact Or.inl hacc
      · rcases htx with ⟨tx', htx', hto, hcap⟩
        exact Or.inr ⟨tx', List.mem_cons_of_mem _ htx', hto, hcap⟩
    · rintro (hacc | ⟨tx', htx', hto, hcap⟩)
      · left
        unfold candStep
        split
        · exact (mem_addCandidate _ _ _).2 (Or.inl hacc)
        · exact hacc
      · rcases List.mem_cons.1 htx' with rfl | hmem
        · left
          unfold candStep
          rw [hcap, if_pos rfl]
          exact (mem_addCandidate _ _ _).2 (Or.inr (by rw [hto]; rfl))
        · exact Or.inr ⟨tx', hmem, hto, hcap⟩

/-- Folding `candStep` preserves the no-duplicates invariant. -/
theorem nodup_foldl_candStep (txs : List Tx) (acc : List Str)
    (h : acc.Nodup) : (txs.foldl candStep acc).Nodup := by
  induction txs generalizing acc with
  | nil => exact h
  | cons tx rest ih =>
    rw [List.foldl_cons]
    apply ih
    unfold candStep
    split
    · exact nodup_addCandidate _ _ h
    · exact h

/-- C4 amended: an address is in the returned candidate list if and
only if some fetched transaction has it as its (truthy) `to` address
and its call data starts — compared case-sensitively, as JS
`startsWith` does — with one of the two selector strings; contract
creations (`to` absent) are never captured, and the returned list has
no duplicates. -/
theorem collectCandidates_spec (txs : List Tx) (a : Str) :
    (a ∈ collectCandidates txs ↔
      ∃ tx ∈ txs, tx.toAddr = some a ∧ txCaptured tx = true) ∧
    (collectCandidates txs).Nodup := by
  constructor
  · rw [show collectCandidates txs = txs.foldl candStep [] from rfl,
      mem_foldl_candStep]
    simp
  · exact nodup_foldl_candStep txs [] List.nodup_nil

/-- A lower-case call to the second selector. -/
def txLower : Tx := ⟨some "0xbeef".toList, some "0x5f3d328e00".toList⟩

/-- Witness for the amended C4 at a concrete transaction list. -/
theorem collectCandidates_spec_witness :
    "0xbeef".toList ∈ collectCandidates [txUpper, txLower] ∧
    (collectCandidates [txUpper, txLower]).Nodup :=
  ⟨(collectCandidates_spec [txUpper, txLower] "0xbeef".toList).1.2
      ⟨txLower, by decide, by decide, by decide⟩,
   (collectCandidates_spec [txUpper, txLower] "0xbeef".toList).2⟩

/-- Witness for C1: the concrete response `resHit` satisfies
`verifiedMatch` and the theorem yields the reported contract name. -/
theorem checkSourceCode_match_iff_witness :
    checkSourceCode resHit = some "Quiz".toList ∧ verifiedMatch resHit := by
  have hvm : verifiedMatch resHit :=
    ⟨rfl, ⟨srcHit, "Quiz".toList⟩, rfl, by decide, by decide⟩
  have h := (checkSourceCode_match_iff resHit).2 ⟨srcHit, "Quiz".toList⟩ rfl hvm
  refine ⟨?_, hvm⟩
  rw [h]
  decide

/-! ## The main run (function main, lines 141-209)

One run loads the persisted list, refreshes every entry's balance
(lines 163-173: a successful `getBalance` overwrites `balance`,
`last_updated` and recomputes `status`; a thrown error leaves the entry
untouched), then processes each discovered candidate address
(lines 181-206: skip when the address already exists case-insensitively,
otherwise verify and on a match append a freshly created entry), and
persists the resulting list.  The network and clock are modelled as
environment inputs: one `Option ℚ` per existing entry (`none` = the
refresh threw), and one outcome per candidate.  Balances are modelled
as rationals; timestamps are opaque text. -/

/-- The derived status enumeration. -/
inductive Status where
  | ACTIVE
  | DRAINED
deriving DecidableEq

/-- A persisted record (interface ScamContract, src lines 36-44). -/
structure ScamContract where
  address : Str
  chain : Str
  balance : ℚ
  name : Str
  first_seen : Str
  last_updated : Str
  status : Status
deriving DecidableEq

/-- The status recomputation `bal > 0.01 ? "ACTIVE" : "DRAINED"`
(src lines 168 and 199). -/
def deriveStatus (bal : ℚ) : Status :=
  if bal > 1 / 100 then .ACTIVE else .DRAINED

/-- One iteration of the balance-refresh loop (src lines 163-173) on
one entry: `some bal` is a successful `getBalance`, `none` a thrown
error (the catch leaves the entry unchanged). -/
def refreshEntity (now : Str) (outcome : Option ℚ) (s : ScamContract) :
    ScamContract :=
  match outcome with
  | some bal =>
    { s with balance := bal, last_updated := now, status := deriveStatus bal }
  | none => s

/-- The balance-refresh loop over the whole list; the i-th outcome
belongs to the i-th entry, and a missing outcome is a failure. -/
def updateBalances (now : Str) :
    List ScamContract → List (Option ℚ) → List ScamContract
  | [], _ => []
  | s :: rest, [] => s :: updateBalances now rest []
  | s :: rest, o :: os => refreshEntity now o s :: updateBalances now rest os

/-- Environment outcome of verifying one candidate: the verification
attempt threw, returned no match, or matched with a reported name and a
subsequently fetched balance. -/
inductive COutcome where
  | errored
  | noMatch
  | matched (name : Str) (bal : ℚ)
deriving DecidableEq

/-- JS `s.toLowerCase()` at the ASCII level. -/
def lowerStr (s : Str) : Str := s.map Char.toLower

/-- The entry pushed for a newly verified scam (src lines 192-200). -/
def newEntity (now addr name : Str) (bal : ℚ) : ScamContract :=
  { address := addr
    chain := "ethereum".toList
    balance := bal
    name := name
    first_seen := now
    last_updated := now
    status := deriveStatus bal }

/-- Processing of one candidate address (src lines 182-206): skip when
an entry with the same lower-cased address exists, otherwise append a
new entry exactly when verification matched. -/
def processCandidate (now : Str) (db : List ScamContract) (addr : Str)
    (out : COutcome) : List ScamContract :=
  if db.any (fun x => lowerStr x.address == lowerStr addr) then db
  else
    match out with
    | .matched name bal => db ++ [newEntity now addr name bal]
    | _ => db

/-- One whole run on a loaded list: refresh all balances, then process
all candidates in order; the result is what step 4 persists. -/
def runMain (now : Str) (db0 : List ScamContract)
    (refreshOuts : List (Option ℚ)) (cands : List (Str × COutcome)) :
    List ScamContract :=
  cands.foldl (fun db c => processCandidate now db c.1 c.2)
    (updateBalances now db0 refreshOuts)

/-- The environment of one run: a clock value, the refresh outcomes and
the discovered candidates with their verification outcomes. -/
structure RunEnv where
  now : Str
  outs : List (Option ℚ)
  cands : List (Str × COutcome)

/-- A sequence of runs, each persisting its result for the next. -/
def runAll (envs : List RunEnv) (db : List ScamContract) :
    List ScamContract :=
  envs.foldl (fun db env => runMain env.now db env.outs env.cands) db

/-- The status/balance relation of the spec. -/
def statusInv (s : ScamContract) : Prop :=
  s.status = deriveStatus s.balance

/-- A successful refresh recomputes the status from the new balance. -/
theorem statusInv_refreshEntity (now : Str) (bal : ℚ) (s : ScamContract) :
    statusInv (refreshEntity now (some bal) s) := rfl

/-- Every entry after the refresh loop either satisfies the relation
(it was refreshed successfully) or is an untouched loaded entry. -/
theorem updateBalances_mem (now : Str) (db : List ScamContract)
    (outs : List (Option ℚ)) :
    ∀ s ∈ updateBalances now db outs, statusInv s ∨ s ∈ db := by
  induction db generalizing outs with
  | nil => intro s hs; cases outs <;> simp [updateBalances] at hs
  | cons hd rest ih =>
    intro s hs
    cases outs with
    | nil =>
      rw [updateBalances] at hs
      rcases List.mem_cons.1 hs with rfl | hmem
      · exact Or.inr (List.mem_cons_self _ _)
      · rcases ih [] s hmem with h | h
        · exact Or.inl h
        · exact Or.inr (List.mem_cons_of_mem _ h)
    | cons o os =>
      rw [updateBalances] at hs
      rcases List.mem_cons.1 hs with rfl | hmem
      · cases o with
        | some bal => exact Or.inl (statusInv_refreshEntity now bal hd)
        | none => exact Or.inr (List.mem_cons_self _ _)
      · rcases ih os s hmem with h | h
        · exact Or.inl h
        · exact Or.inr (List.mem_cons_of_mem _ h)

/-- `processCandidate` either leaves the list unchanged or appends one
freshly created entry. -/
theorem processCandidate_eq_or (now : Str) (db : List ScamContract)
    (addr : Str) (out : COutcome) :
    processCandidate now db addr out = db ∨
      ∃ name bal, out = .matched name bal ∧
        processCandidate now db addr out =
          db ++ [newEntity now addr name bal] := by
  unfold processCandidate
  split
  · exact Or.inl rfl
  · cases out with
    | errored => exact Or.inl rfl
    | noMatch => exact Or.inl rfl
    | matched name bal => exact Or.inr ⟨name, bal, rfl, rfl⟩

/-- A freshly created entry satisfies the status/balance relation. -/
theorem statusInv_newEntity (now addr name : Str) (bal : ℚ) :
    statusInv (newEntity now addr name bal) := rfl

/-- Every entry after the candidate loop either satisfies the relation
or was already in the list the loop started from. -/
theorem foldl_processCandidate_mem (now : Str)
    (cands : List (Str × COutcome)) (db : List ScamContract) :
    ∀ s ∈ cands.foldl (fun db c => processCandidate now db c.1 c.2) db,
      statusInv s ∨ s ∈ db := by
  induction cands generalizing db with
  | nil => intro s hs; exact Or.inr hs
  | cons c rest ih =>
    intro s hs
    rw [List.foldl_cons] at hs
    rcases ih (processCandidate now db c.1 c.2) s hs with h | h
    · exact Or.inl h
    · rcases processCandidate_eq_or now db c.1 c.2 with heq | ⟨name, bal, -, heq⟩
      · rw [heq] at h; exact Or.inr h
      · rw [heq] at h
        rcases List.mem_append.1 h with h | h
        · exact Or.inr h
        · rcases List.mem_singleton.1 h with rfl
          exact Or.inl (statusInv_newEntity now c.1 name bal)

/-- C5: immediately after a successful balance refresh and at creation
the status is recomputed as ACTIVE exactly when the balance exceeds
0.01 and DRAINED otherwise; a run preserves the relation (entries whose
refresh threw are left untouched), so it holds for every entry of the
persisted set at the end of every run of the system started from the
initial empty store. -/
theorem statusInv_runs (now : Str) (db0 : List ScamContract)
    (outs : List (Option ℚ)) (cands : List (Str × COutcome)) :
    (∀ bal s, statusInv (refreshEntity now (some bal) s)) ∧
    (∀ addr name bal, statusInv (newEntity now addr name bal)) ∧
    ((∀ s ∈ db0, statusInv s) →
      ∀ s ∈ runMain now db0 outs cands, statusInv s) ∧
    (∀ envs, ∀ s ∈ runAll envs [], statusInv s) := by
  have hrun : ∀ nw (db : List ScamContract) os cs,
      (∀ s ∈ db, statusInv s) → ∀ s ∈ runMain nw db os cs, statusInv s := by
    intro nw db os cs hdb s hs
    rcases foldl_processCandidate_mem nw cs (updateBalances nw db os) s hs
      with h | h
    · exact h
    · rcases updateBalances_mem nw db os s h with h' | h'
      · exact h'
      · exact hdb s h'
  refine ⟨fun bal s => statusInv_refreshEntity now bal s,
    fun addr name bal => statusInv_newEntity now addr name bal,
    hrun now db0 outs cands, ?_⟩
  intro envs
  induction envs using List.reverseRecOn with
  | nil => intro s hs; simp [runAll] at hs
  | append_singleton front env ih =>
    intro s hs
    rw [runAll, List.foldl_append, List.foldl_cons, List.foldl_nil] at hs
    exact hrun env.now (runAll front []) env.outs env.cands ih s hs

/-- Witness for C5 at concrete inputs: a run on a well-formed single
entry list with a successful refresh to 0 flips it to DRAINED, and the
relation holds for it. -/
theorem statusInv_runs_witness :
    (∀ s ∈ runMain "t1".toList [newEntity "t0".toList "0xAAA".toList
        "Quiz".toList 5] [some 0] [], statusInv s) ∧
    statusInv (refreshEntity "t1".toList (some 0)
      (newEntity "t0".toList "0xAAA".toList "Quiz".toList 5)) :=
  ⟨(statusInv_runs "t1".toList
      [newEntity "t0".toList "0xAAA".toList "Quiz".toList 5]
      [some 0] []).2.2.1
    (by intro s hs
        rcases List.mem_singleton.1 hs with rfl
        exact statusInv_newEntity _ _ _ _),
   (statusInv_runs "t1".toList [] [] []).1 0 _⟩

/-- Case-insensitive uniqueness of addresses across a persisted list. -/
def ciUnique (db : List ScamContract) : Prop :=
  (db.map (fun s => lowerStr s.address)).Nodup

/-- The identifying fields the refresh loop never writes. -/
def identFields (s : ScamContract) : Str × Str × Str × Str :=
  (s.address, s.chain, s.name, s.first_seen)

/-- The refresh loop rewrites only balance, last_updated and status:
the identifying fields of every position are unchanged. -/
theorem updateBalances_identFields (now : Str) (db : List ScamContract)
    (outs : List (Option ℚ)) :
    (updateBalances now db outs).map identFields = db.map identFields := by
  induction db generalizing outs with
  | nil => cases outs <;> rfl
  | cons hd rest ih =>
    cases outs with
    | nil => rw [updateBalances]; simp only [List.map_cons, ih]
    | cons o os =>
      rw [updateBalances]
      simp only [List.map_cons, ih]
      cases o <;> rfl

/-- Addresses (lower-cased) are unchanged by the refresh loop. -/
theorem updateBalances_addresses (now : Str) (db : List ScamContract)
    (outs : List (Option ℚ)) :
    (updateBalances now db outs).map (fun s => lowerStr s.address) =
      db.map (fun s => lowerStr s.address) := by
  have h := congrArg (List.map (fun p : Str × Str × Str × Str => lowerStr p.1))
    (updateBalances_identFields now db outs)
  simpa [List.map_map, Function.comp] using h

/-- One candidate step preserves case-insensitive uniqueness. -/
theorem ciUnique_processCandidate (now : Str) (db : List ScamContract)
    (addr : Str) (out : COutcome) (h : ciUnique db) :
    ciUnique (processCandidate now db addr out) := by
  unfold processCandidate
  split
  · exact h
  · rename_i hna
    cases out with
    | errored => exact h
    | noMatch => exact h
    | matched name bal =>
      unfold ciUnique
      rw [List.map_append]
      rw [List.nodup_append]
      refine ⟨h, List.nodup_singleton _, ?_⟩
      intro a ha hb
      rcases List.mem_singleton.1 hb with rfl
      rcases List.mem_map.1 ha with ⟨x, hx, hax⟩
      apply hna
      rw [List.any_eq_true]
      refine ⟨x, hx, ?_⟩
      rw [beq_iff_eq]
      exact hax.trans rfl

/-- C6: a discovered candidate whose address equals an existing entry's
address up to letter case is skipped and creates no second record, and
every run preserves case-insensitive uniqueness of the addresses of the
persisted set. -/
theorem ciUnique_run (now : Str) (db0 : List ScamContract)
    (outs : List (Option ℚ)) (cands : List (Str × COutcome)) :
    (∀ (db : List ScamContract) addr out,
      (∃ x ∈ db, lowerStr x.address = lowerStr addr) →
        processCandidate now db addr out = db) ∧
    (ciUnique db0 → ciUnique (runMain now db0 outs cands)) := by
  constructor
  · rintro db addr out ⟨x, hx, hax⟩
    unfold processCandidate
    rw [if_pos]
    rw [List.any_eq_true]
    exact ⟨x, hx, by rw [beq_iff_eq]; exact hax⟩
  · intro h0
    have hub : ciUnique (updateBalances now db0 outs) := by
      unfold ciUnique
      rw [updateBalances_addresses]
      exact h0
    rw [runMain]
    generalize updateBalances now db0 outs = db at hub
    induction cands generalizing db with
    | nil => exact hub
    | cons c rest ih =>
      rw [List.foldl_cons]
      exact ih _ (ciUnique_processCandidate now db c.1 c.2 hub)

/-- Two concrete runs feeding a candidate differing only in case. -/
def entAAA : ScamContract := newEntity "t0".toList "0xAbC".toList "Quiz".toList 5

/-- Witness for C6 at concrete inputs: the candidate "0xabc" differing
from the stored "0xAbC" only in case is skipped, and a run with that
candidate preserves case-insensitive uniqueness. -/
theorem ciUnique_run_witness :
    processCandidate "t1".toList [entAAA] "0xabc".toList
      (.matched "Quiz2".toList 3) = [entAAA] ∧
    ciUnique (runMain "t1".toList [entAAA] [some 5]
      [("0xabc".toList, .matched "Quiz2".toList 3)]) :=
  ⟨(ciUnique_run "t1".toList [entAAA] [some 5]
      [("0xabc".toList, .matched "Quiz2".toList 3)]).1
      [entAAA] "0xabc".toList (.matched "Quiz2".toList 3)
      ⟨entAAA, List.mem_singleton_self _, by decide⟩,
   (ciUnique_run "t1".toList [entAAA] [some 5]
      [("0xabc".toList, .matched "Quiz2".toList 3)]).2
      (by unfold ciUnique; decide)⟩

/-- The candidate loop only ever appends to the list it starts from. -/
theorem foldl_processCandidate_append (now : Str)
    (cands : List (Str × COutcome)) (db : List ScamContract) :
    ∃ t, cands.foldl (fun db c => processCandidate now db c.1 c.2) db =
      db ++ t := by
  induction cands generalizing db with
  | nil => exact ⟨[], by simp⟩
  | cons c rest ih =>
    rw [List.foldl_cons]
    rcases processCandidate_eq_or now db c.1 c.2 with heq | ⟨name, bal, -, heq⟩
    · rw [heq]; exact ih db
    · rw [heq]
      obtain ⟨t, ht⟩ := ih (db ++ [newEntity now c.1 name bal])
      exact ⟨[newEntity now c.1 name bal] ++ t, by rw [ht, List.append_assoc]⟩

/-- The refresh loop preserves the length of the list. -/
theorem updateBalances_length (now : Str) (db : List ScamContract)
    (outs : List (Option ℚ)) :
    (updateBalances now db outs).length = db.length := by
  have h := congrArg List.length (updateBalances_identFields now db outs)
  simpa using h

/-- The loaded prefix of one run's result, on identifying fields. -/
theorem runMain_take_identFields (now : Str) (db0 : List ScamContract)
    (outs : List (Option ℚ)) (cands : List (Str × COutcome)) :
    ((runMain now db0 outs cands).take db0.length).map identFields =
      db0.map identFields := by
  obtain ⟨t, ht⟩ := foldl_processCandidate_append now cands
    (updateBalances now db0 outs)
  rw [runMain, ht, ← updateBalances_length now db0 outs, List.take_left,
    updateBalances_identFields]

/-- C7: the balance-refresh step rewrites only balance, last_updated
and status — address, chain, name and first_seen of every entry are
untouched — and any sequence of subsequent runs leaves the identifying
fields (in particular first_seen, written once at creation) of every
already persisted entry unchanged at its position. -/
theorem run_frame (now : Str) (db0 : List ScamContract)
    (outs : List (Option ℚ)) (cands : List (Str × COutcome)) :
    (∀ (nw : Str) (o : Option ℚ) (s : ScamContract),
      (refreshEntity nw o s).address = s.address ∧
      (refreshEntity nw o s).chain = s.chain ∧
      (refreshEntity nw o s).name = s.name ∧
      (refreshEntity nw o s).first_seen = s.first_seen) ∧
    (((runMain now db0 outs cands).take db0.length).map identFields =
      db0.map identFields) ∧
    (∀ envs (db : List ScamContract),
      ((runAll envs db).take db.length).map identFields =
        db.map identFields) := by
  refine ⟨fun nw o s => by cases o <;> exact ⟨rfl, rfl, rfl, rfl⟩,
    runMain_take_identFields now db0 outs cands, ?_⟩
  intro envs
  induction envs with
  | nil => intro db; rw [runAll, List.foldl_nil, List.take_length]
  | cons env rest ih =>
    intro db
    have hstep : runAll (env :: rest) db =
        runAll rest (runMain env.now db env.outs env.cands) := rfl
    rw [hstep]
    have hlen : db.length ≤ (runMain env.now db env.outs env.cands).length := by
      obtain ⟨t, ht⟩ := foldl_processCandidate_append env.now env.cands
        (updateBalances env.now db env.outs)
      rw [runMain, ht, List.length_append, updateBalances_length]
      exact Nat.le_add_right _ _
    have h1 := ih (runMain env.now db env.outs env.cands)
    have h2 : (runAll rest (runMain env.now db env.outs env.cands)).take
          db.length =
        ((runAll rest (runMain env.now db env.outs env.cands)).take
          (runMain env.now db env.outs env.cands).length).take db.length := by
      rw [List.take_take, Nat.min_eq_left hlen]
    rw [h2, List.map_take, h1, ← List.map_take]
    exact runMain_take_identFields env.now db env.outs env.cands

/-! ## Report marker replacement (main, lines 246-259)

The regex `<!-- SCAM_LIST_START -->[\s\S]*?<!-- SCAM_LIST_END -->`
(non-greedy, non-global) matches at the leftmost position where the
start marker occurs followed somewhere later by the end marker, and the
lazy quantifier makes the match end at the first end marker after that
start marker; `String.replace` with a non-global regex replaces only
that first match.  Since the end marker's only '<' is its first
character and the start marker contains no '<' past position 0, no end
marker can begin strictly inside a start marker, so the leftmost match
begins at the first start-marker occurrence whenever any match exists.
`findPat` below returns the first position where a pattern occurs and
`markerSpan` combines two such searches into the matched span.
`String.replace` with a string replacement does not splice the
replacement literally: per ECMA-262 GetSubstitution, dollar patterns
in the replacement text are expanded against the match, and the
replacement here carries the rendered table, whose contract names may
contain dollars; `getSubstitution` models this expansion (the regex has
no capture groups, so only the dollar, whole-match, before-match and
after-match patterns substitute, and every other dollar stays
literal).  `updateReadme` performs the replacement, or the fallback
append of src line 258 — plain string concatenation, no substitution —
when there is no match. -/

/-- The start marker literal. -/
def START : Str := "<!-- SCAM_LIST_START -->".toList

/-- The end marker literal. -/
def ENDM : Str := "<!-- SCAM_LIST_END -->".toList

/-- First index at which `pat` occurs in the list, if any. -/
def findPat (pat : Str) : Str → Option Nat
  | [] => if pat.isPrefixOf ([] : Str) then some 0 else none
  | c :: rest =>
    if pat.isPrefixOf (c :: rest) then some 0
    else (findPat pat rest).map (· + 1)

/-- The span `[i, j)` of the regex match: `i` the position of the first
start marker, `j` the end of the first end marker at or after
`i + START.length`. -/
def markerSpan (doc : Str) : Option (Nat × Nat) :=
  match findPat START doc with
  | none => none
  | some i =>
    match findPat ENDM (doc.drop (i + START.length)) with
    | none => none
    | some k => some (i, i + START.length + k + ENDM.length)

/-- The backquote character (code point 96). -/
def backquoteChar : Char := Char.ofNat 96

/-- The single-quote character (code point 39). -/
def singleQuoteChar : Char := Char.ofNat 39

/-- ECMA-262 GetSubstitution for a string replacement against a regex
with no capture groups: in the replacement text, a dollar followed by
a dollar yields one dollar, `matched` replaces a dollar followed by an
ampersand, `before` (the document before the match) a dollar followed
by a backquote, `after` (the document after the match) a dollar
followed by a single quote; any other dollar — trailing, before a
digit, or before any other character — stays literal. -/
def getSubstitution (matched before after : Str) : Str → Str
  | [] => []
  | c :: rest =>
    if c = '$' then
      match rest with
      | [] => ['$']
      | d :: rest2 =>
        if d = '$' then '$' :: getSubstitution matched before after rest2
        else if d = '&' then
          matched ++ getSubstitution matched before after rest2
        else if d = backquoteChar then
          before ++ getSubstitution matched before after rest2
        else if d = singleQuoteChar then
          after ++ getSubstitution matched before after rest2
        else '$' :: d :: getSubstitution matched before after rest2
    else c :: getSubstitution matched before after rest

/-- Embedding of the README update (src lines 248-258): the regex match
is replaced by the marker-wrapped table after dollar substitution
against the matched span, as `String.replace` does with a string
replacement; when there is no match, a fresh marker block is appended
literally after the whole document. -/
def updateReadme (doc table : Str) : Str :=
  match markerSpan doc with
  | some (i, j) =>
    doc.take i ++
      getSubstitution ((doc.drop i).take (j - i)) (doc.take i) (doc.drop j)
        (START ++ table ++ ENDM) ++ doc.drop j
  | none => doc ++ "\n\n".toList ++ START ++ table ++ ENDM

/-- Dollar substitution is the identity on dollar-free text. -/
theorem getSubstitution_of_not_mem (m b a : Str) (l : Str)
    (h : '$' ∉ l) : getSubstitution m b a l = l := by
  induction l with
  | nil => rfl
  | cons c rest ih =>
    have hc : ¬(c = '$') := by
      intro hceq
      exact h (by rw [hceq]; exact List.mem_cons_self _ _)
    have hstep : getSubstitution m b a (c :: rest) =
        c :: getSubstitution m b a rest := by
      rw [getSubstitution.eq_def]
      simp only [if_neg hc]
    rw [hstep, ih (fun hm => h (List.mem_cons_of_mem _ hm))]

/-- Soundness of `findPat`: it returns a position of the pattern, and
the first one. -/
theorem findPat_some (pat : Str) (l : Str) (i : Nat)
    (h : findPat pat l = some i) :
    pat.isPrefixOf (l.drop i) = true ∧
      ∀ j, j < i → pat.isPrefixOf (l.drop j) = false := by
  induction l generalizing i with
  | nil =>
    rw [findPat] at h
    split at h
    · rename_i hp
      injection h with hi
      subst hi
      exact ⟨hp, fun j hj => absurd hj (Nat.not_lt_zero j)⟩
    · exact absurd h (by simp)
  | cons c rest ih =>
    rw [findPat] at h
    split at h
    · rename_i hp
      injection h with hi
      subst hi
      exact ⟨hp, fun j hj => absurd hj (Nat.not_lt_zero j)⟩
    · rename_i hp
      rcases Option.map_eq_some'.1 h with ⟨k, hk, rfl⟩
      obtain ⟨hpre, hmin⟩ := ih k hk
      refine ⟨hpre, ?_⟩
      intro j hj
      cases j with
      | zero => exact Bool.not_eq_true _ ▸ eq_false_of_ne_true hp
      | succ j' => exact hmin j' (Nat.lt_of_succ_lt_succ hj)

/-- Completeness of `findPat`: on `none`, a nonempty pattern occurs
nowhere. -/
theorem findPat_none (pat : Str) (l : Str)
    (h : findPat pat l = none) :
    ∀ i, pat.isPrefixOf (l.drop i) = false := by
  induction l with
  | nil =>
    intro i
    rw [findPat] at h
    split at h
    · exact absurd h (by simp)
    · rename_i hp
      rw [List.drop_nil]
      exact eq_false_of_ne_true hp
  | cons c rest ih =>
    intro i
    rw [findPat] at h
    split at h
    · exact absurd h (by simp)
    · rename_i hp
      have hrest : findPat pat rest = none := by
        cases hfp : findPat pat rest with
        | none => rfl
        | some k => rw [hfp] at h; exact absurd h (by simp)
      cases i with
      | zero => exact eq_false_of_ne_true hp
      | succ i' => exact ih hrest i'

/-- C8 amended: when the markers are present, the update replaces
exactly the matched span — from the first start-marker occurrence
through the first end marker after it — with the marker-wrapped
rendered table after dollar substitution against the span, keeping
everything before and after the span byte-for-byte; whenever the
rendered table contains no dollar sign, the inserted content is
exactly the marker-wrapped freshly rendered table; when no marker pair
exists, the whole original document is kept unchanged and a new marker
block is appended after it. -/
theorem updateReadme_frame (doc table : Str) :
    (∀ i j, markerSpan doc = some (i, j) →
      updateReadme doc table =
        doc.take i ++
          getSubstitution ((doc.drop i).take (j - i)) (doc.take i)
            (doc.drop j) (START ++ table ++ ENDM) ++ doc.drop j ∧
      ('$' ∉ table →
        updateReadme doc table =
          doc.take i ++ START ++ table ++ ENDM ++ doc.drop j) ∧
      START.isPrefixOf (doc.drop i) = true ∧
      (∀ i', i' < i → START.isPrefixOf (doc.drop i') = false) ∧
      i + START.length + ENDM.length ≤ j ∧
      ENDM.isPrefixOf (doc.drop (j - ENDM.length)) = true ∧
      (∀ e, i + START.length ≤ e → e < j - ENDM.length →
        ENDM.isPrefixOf (doc.drop e) = false)) ∧
    (markerSpan doc = none →
      updateReadme doc table =
        doc ++ "\n\n".toList ++ START ++ table ++ ENDM ∧
      (∀ s e, START.isPrefixOf (doc.drop s) = true →
        s + START.length ≤ e → ENDM.isPrefixOf (doc.drop e) = false)) := by
  constructor
  · intro i j h
    have hupd : updateReadme doc table =
        doc.take i ++
          getSubstitution ((doc.drop i).take (j - i)) (doc.take i)
            (doc.drop j) (START ++ table ++ ENDM) ++ doc.drop j := by
      rw [updateReadme, h]
    have hlit : '$' ∉ table →
        updateReadme doc table =
          doc.take i ++ START ++ table ++ ENDM ++ doc.drop j := by
      intro hdt
      have hnd : '$' ∉ START ++ table ++ ENDM := by
        intro hmem
        rcases List.mem_append.1 hmem with hm | hm
        · rcases List.mem_append.1 hm with hm' | hm'
          · exact absurd hm' (by decide)
          · exact hdt hm'
        · exact absurd hm (by decide)
      rw [hupd, getSubstitution_of_not_mem _ _ _ _ hnd]
      simp [List.append_assoc]
    refine ⟨hupd, hlit, ?_⟩
    rw [markerSpan] at h
    split at h
    · exact absurd h (by simp)
    · rename_i i0 hs
      split at h
      · exact absurd h (by simp)
      · rename_i k he
        injection h with hpair
        have hi : i = i0 := (congrArg Prod.fst hpair).symm
        have hj : j = i0 + START.length + k + ENDM.length :=
          (congrArg Prod.snd hpair).symm
        subst hi
        obtain ⟨hS, hSmin⟩ := findPat_some START doc i hs
        obtain ⟨hE, hEmin⟩ := findPat_some ENDM (doc.drop (i + START.length)) k he
        have hjE : j - ENDM.length = i + START.length + k := by omega
        refine ⟨hS, hSmin, by omega, ?_, ?_⟩
        · rw [hjE, ← List.drop_drop]
          exact hE
        · intro e he1 he2
          rw [hjE] at he2
          have hm : e = i + START.length + (e - (i + START.length)) := by omega
          rw [hm, ← List.drop_drop]
          exact hEmin (e - (i + START.length)) (by omega)
  · intro h
    have hupd : updateReadme doc table =
        doc ++ "\n\n".toList ++ START ++ table ++ ENDM := by
      rw [updateReadme, h]
    refine ⟨hupd, ?_⟩
    rw [markerSpan] at h
    split at h
    · rename_i hs
      intro s e hsp _
      exact absurd (findPat_none START doc hs s) (by rw [hsp]; simp)
    · rename_i i0 hs
      split at h
      · rename_i he
        intro s e hsp hle
        obtain ⟨-, hSmin⟩ := findPat_some START doc i0 hs
        have hi0 : i0 ≤ s := by
          by_contra hlt
          rw [hSmin s (Nat.lt_of_not_le hlt)] at hsp
          exact absurd hsp (by simp)
        have hm : e = i0 + START.length + (e - (i0 + START.length)) := by omega
        rw [hm, ← List.drop_drop]
        exact findPat_none ENDM (doc.drop (i0 + START.length)) he
          (e - (i0 + START.length))
      · exact absurd h (by simp)

/-- A document with one marker pair around old content. -/
def docWithMarkers : Str :=
  "A".toList ++ START ++ "old".toList ++ ENDM ++ "Z".toList

/-- A document without markers. -/
def docNoMarkers : Str := "# Scam Tracker".toList

/-- C8 counterexample: on a document with one marker pair, a rendered
table containing the whole-match dollar pattern makes the program
insert the matched span itself in its place — not the freshly rendered
table — so the replacement is not the literal splice the claim
states.  (Everything outside the span is still untouched.) -/
theorem updateReadme_counterexample :
    markerSpan docWithMarkers = some (1, 50) ∧
    updateReadme docWithMarkers "a$&b".toList =
      "A".toList ++ START ++ "a".toList ++
        (START ++ "old".toList ++ ENDM) ++ "b".toList ++ ENDM ++
        "Z".toList ∧
    updateReadme docWithMarkers "a$&b".toList ≠
      docWithMarkers.take 1 ++ START ++ "a$&b".toList ++ ENDM ++
        docWithMarkers.drop 50 := by
  refine ⟨by decide, by decide, by decide⟩

/-- Witness for the amended C8 at two concrete documents: with markers
and a dollar-free table, the span `[1, 50)` is replaced by the literal
marker-wrapped table and the outside kept; without markers the block
is appended after the unchanged document. -/
theorem updateReadme_frame_witness :
    updateReadme docWithMarkers "T".toList =
      docWithMarkers.take 1 ++ START ++ "T".toList ++ ENDM ++
        docWithMarkers.drop 50 ∧
    updateReadme docNoMarkers "T".toList =
      docNoMarkers ++ "\n\n".toList ++ START ++ "T".toList ++ ENDM :=
  ⟨(((updateReadme_frame docWithMarkers "T".toList).1 1 50
      (by decide)).2.1 (by decide)),
   ((updateReadme_frame docNoMarkers "T".toList).2 (by decide)).1⟩

/-! ## Report row ordering (main, lines 224-243)

`db.sort((a, b) => ...)` sorts with a comparator returning a negative
number when `a` must come first.  The comparator below is the one of
src lines 228-232; JS engines use a stable sort, and with a consistent
comparator the result is the unique stable sorted permutation, which we
model by insertion sort on the induced total preorder. -/

/-- The comparator of src lines 228-232 (its sign is what matters). -/
def compareEntries (a b : ScamContract) : ℚ :=
  if a.status = .ACTIVE ∧ b.status ≠ .ACTIVE then -1
  else if a.status ≠ .ACTIVE ∧ b.status = .ACTIVE then 1
  else b.balance - a.balance

/-- The total preorder induced by the comparator. -/
def jsLe (a b : ScamContract) : Prop := compareEntries a b ≤ 0

instance : DecidableRel jsLe := fun a b =>
  inferInstanceAs (Decidable (compareEntries a b ≤ 0))

/-- The sorted list the report renders from. -/
def sortDb (db : List ScamContract) : List ScamContract :=
  db.insertionSort jsLe

/-- Rank used to express the comparator order: ACTIVE first. -/
def statusRank : Status → Nat
  | .ACTIVE => 0
  | .DRAINED => 1

/-- The comparator orders by status rank, then by descending balance. -/
theorem jsLe_iff (a b : ScamContract) :
    jsLe a b ↔ (statusRank a.status < statusRank b.status ∨
      (statusRank a.status = statusRank b.status ∧
        b.balance ≤ a.balance)) := by
  cases ha : a.status <;> cases hb : b.status <;>
    simp [jsLe, compareEntries, ha, hb, statusRank, sub_nonpos]

/-- `jsLe` is transitive. -/
theorem jsLe_trans (a b c : ScamContract) (hab : jsLe a b)
    (hbc : jsLe b c) : jsLe a c := by
  rw [jsLe_iff] at hab hbc ⊢
  rcases hab with h | ⟨h1, h2⟩ <;> rcases hbc with h' | ⟨h1', h2'⟩
  · exact Or.inl (h.trans h')
  · exact Or.inl (by omega)
  · exact Or.inl (by omega)
  · exact Or.inr ⟨h1.trans h1', h2'.trans h2⟩

/-- `jsLe` is total. -/
theorem jsLe_total (a b : ScamContract) : jsLe a b ∨ jsLe b a := by
  rw [jsLe_iff, jsLe_iff]
  rcases Nat.lt_trichotomy (statusRank a.status) (statusRank b.status)
    with h | h | h
  · exact Or.inl (Or.inl h)
  · rcases le_total b.balance a.balance with hb | hb
    · exact Or.inl (Or.inr ⟨h, hb⟩)
    · exact Or.inr (Or.inr ⟨h.symm, hb⟩)
  · exact Or.inr (Or.inl h)

instance : IsTrans ScamContract jsLe := ⟨jsLe_trans⟩

instance : IsTotal ScamContract jsLe := ⟨jsLe_total⟩

/-- The row order the claim states: no DRAINED row before an ACTIVE
row, and within equal status non-increasing balance. -/
def claimOrder (a b : ScamContract) : Prop :=
  (a.status = .DRAINED → b.status = .DRAINED) ∧
  (a.status = b.status → b.balance ≤ a.balance)

/-- The comparator order implies the claimed order. -/
theorem jsLe_claimOrder (a b : ScamContract) (h : jsLe a b) :
    claimOrder a b := by
  rw [jsLe_iff] at h
  constructor
  · intro hda
    cases hdb : b.status with
    | DRAINED => rfl
    | ACTIVE =>
      exfalso
      rcases h with h | ⟨h1, -⟩
      · rw [hda, hdb] at h
        simp [statusRank] at h
      · rw [hda, hdb] at h1
        simp [statusRank] at h1
  · intro hab
    rcases h with h | ⟨-, h2⟩
    · rw [hab] at h
      exact absurd h (lt_irrefl _)
    · exact h2

/-- C9: the rendered table is a pure function of the persisted set —
the rows are the sorted entries in order, so re-rendering the same set
yields the same rows — and the sorted order places every ACTIVE row
before every DRAINED row and is by non-increasing balance within equal
status; sorting permutes the persisted entries. -/
theorem sortDb_spec (db : List ScamContract) :
    (sortDb db).Perm db ∧ List.Pairwise claimOrder (sortDb db) := by
  constructor
  · exact List.perm_insertionSort jsLe db
  · exact List.Pairwise.imp (fun hab => jsLe_claimOrder _ _ hab)
      (List.sorted_insertionSort jsLe db)

/-! ## Report row rendering (main, lines 234-241)

Each data row is the template
`| ${safeName} | [${address8}...](${link}) | **${balance4}** |
${status} | ${dateStr} |` followed by a newline, where `safeName`
replaces every '|' of the name by '-' and trims surrounding whitespace,
with the "Unknown" fallback for a falsy name. -/

/-- Decimal digit characters. -/
def digitChar (d : Nat) : Char :=
  if d = 0 then '0' else if d = 1 then '1' else if d = 2 then '2'
  else if d = 3 then '3' else if d = 4 then '4' else if d = 5 then '5'
  else if d = 6 then '6' else if d = 7 then '7' else if d = 8 then '8'
  else if d = 9 then '9' else '?'

/-- Decimal digits of a natural number (fuel-based recursion). -/
def natDigitsAux : Nat → Nat → Str
  | 0, _ => []
  | fuel + 1, n =>
    if n < 10 then [digitChar n]
    else natDigitsAux fuel (n / 10) ++ [digitChar (n % 10)]

/-- Decimal digits of a natural number. -/
def natDigits (n : Nat) : Str := natDigitsAux (n + 1) n

/-- Left-pad a digit string to 4 characters with zeroes. -/
def pad4 (l : Str) : Str := List.replicate (4 - l.length) '0' ++ l

/-- Model of JS `balance.toFixed(4)` on the rational balance: sign,
integer digits, a dot and exactly four fractional digits of the value
rounded to 4 decimal places. -/
def toFixed4 (q : ℚ) : Str :=
  let n : ℤ := ⌊q * 10000 + 1 / 2⌋
  let m : Nat := n.natAbs
  (if n < 0 then ['-'] else []) ++ natDigits (m / 10000) ++
    ['.'] ++ pad4 (natDigits (m % 10000))

/-- The rendered status column. -/
def statusStr : Status → Str
  | .ACTIVE => "ACTIVE".toList
  | .DRAINED => "DRAINED".toList

/-- JS whitespace trimmed by `trim` (the kinds relevant here). -/
def isJsSpace (c : Char) : Bool :=
  c = ' ' || c = '\t' || c = '\n' || c = '\r'

/-- JS `s.trim()`: drop leading and trailing whitespace. -/
def trimStr (s : Str) : Str :=
  ((s.dropWhile isJsSpace).reverse.dropWhile isJsSpace).reverse

/-- JS `s.replace(/\|/g, "-")`: every pipe becomes a dash. -/
def replacePipes (s : Str) : Str :=
  s.map (fun c => if c = '|' then '-' else c)

/-- The name cell (src line 237):
`(s.name || "Unknown").replace(/\|/g, "-").trim()`. -/
def safeName (name : Str) : Str := trimStr (replacePipes (orUnknown name))

/-- The first-seen cell (src line 238):
`s.first_seen ? s.first_seen.split("T")[0] : "Unknown"`. -/
def dateStr (first_seen : Str) : Str :=
  if first_seen = [] then "Unknown".toList
  else first_seen.takeWhile (fun c => c ≠ 'T')

/-- The explorer link (src line 235). -/
def explorerLink (addr : Str) : Str :=
  "https://etherscan.io/address/".toList ++ addr

/-- One rendered data row (src line 240), newline included. -/
def renderRow (s : ScamContract) : Str :=
  "| ".toList ++ safeName s.name ++ " | [".toList ++ s.address.take 8 ++
    "...](".toList ++ explorerLink s.address ++ ") | **".toList ++
    toFixed4 s.balance ++ "** | ".toList ++ statusStr s.status ++
    " | ".toList ++ dateStr s.first_seen ++ " |\n".toList

/-- The rows of the rendered table, in render order. -/
def renderRows (db : List ScamContract) : List Str :=
  (sortDb db).map renderRow

/-- Digit characters are never a pipe. -/
theorem digitChar_ne_pipe (d : Nat) : digitChar d ≠ '|' := by
  unfold digitChar
  split_ifs <;> decide

/-- Digit strings never contain a pipe. -/
theorem pipe_notin_natDigitsAux (fuel n : Nat) :
    '|' ∉ natDigitsAux fuel n := by
  induction fuel generalizing n with
  | zero => simp [natDigitsAux]
  | succ fuel ih =>
    rw [natDigitsAux]
    split
    · simp [List.mem_singleton]
      exact (digitChar_ne_pipe n).symm
    · intro hmem
      rcases List.mem_append.1 hmem with h | h
      · exact ih (n / 10) h
      · rw [List.mem_singleton] at h
        exact digitChar_ne_pipe (n % 10) h.symm

/-- Padded digit strings never contain a pipe. -/
theorem pipe_notin_pad4 (l : Str) (h : '|' ∉ l) : '|' ∉ pad4 l := by
  intro hmem
  rcases List.mem_append.1 hmem with hm | hm
  · exact absurd (List.eq_of_mem_replicate hm) (by decide)
  · exact h hm

/-- The rendered balance never contains a pipe. -/
theorem pipe_notin_toFixed4 (q : ℚ) : '|' ∉ toFixed4 q := by
  unfold toFixed4
  intro hmem
  rcases List.mem_append.1 hmem with hm | hm
  · rcases List.mem_append.1 hm with hm' | hm'
    · rcases List.mem_append.1 hm' with hm'' | hm''
      · split at hm''
        · rw [List.mem_singleton] at hm''
          exact absurd hm'' (by decide)
        · exact absurd hm'' (List.not_mem_nil _)
      · exact pipe_notin_natDigitsAux _ _ hm''
    · rw [List.mem_singleton] at hm'
      exact absurd hm' (by decide)
  · exact pipe_notin_pad4 _ (pipe_notin_natDigitsAux _ _) hm

/-- The replacement step removes every pipe. -/
theorem pipe_notin_replacePipes (s : Str) : '|' ∉ replacePipes s := by
  intro hmem
  rcases List.mem_map.1 hmem with ⟨c, -, hc⟩
  by_cases h : c = '|'
  · rw [h] at hc
    simp at hc
  · rw [if_neg h] at hc
    exact h hc

/-- Trimming keeps only characters of the original string. -/
theorem mem_trimStr (s : Str) (c : Char) (h : c ∈ trimStr s) : c ∈ s := by
  unfold trimStr at h
  rw [List.mem_reverse] at h
  have h1 := (List.dropWhile_sublist (l := (s.dropWhile isJsSpace).reverse)
    (p := isJsSpace)).mem h
  rw [List.mem_reverse] at h1
  exact (List.dropWhile_sublist (l := s) (p := isJsSpace)).mem h1

/-- The name cell never contains a pipe, whatever the stored name. -/
theorem pipe_notin_safeName (name : Str) : '|' ∉ safeName name :=
  fun h => pipe_notin_replacePipes (orUnknown name) (mem_trimStr _ _ h)

/-- The status cell never contains a pipe. -/
theorem pipe_notin_statusStr (st : Status) : '|' ∉ statusStr st := by
  cases st <;> decide

/-- The first-seen cell contains no pipe when the timestamp has none. -/
theorem pipe_notin_dateStr (fs : Str) (h : '|' ∉ fs) :
    '|' ∉ dateStr fs := by
  unfold dateStr
  split
  · decide
  · intro hmem
    exact h ((List.takeWhile_sublist _).mem hmem)

/-- C10: the name cell is the stored name (with the "Unknown" fallback)
with every '|' replaced by '-' and surrounding whitespace trimmed, so
it can never contain a column separator; for an entry whose address and
first_seen text are pipe-free (as real addresses and ISO timestamps
are), the rendered row contains exactly the 6 pipes of the template,
i.e. exactly five cells. -/
theorem renderRow_cells (s : ScamContract)
    (ha : '|' ∉ s.address) (hd : '|' ∉ s.first_seen) :
    '|' ∉ safeName s.name ∧ (renderRow s).count '|' = 6 := by
  refine ⟨pipe_notin_safeName s.name, ?_⟩
  have h1 : (safeName s.name).count '|' = 0 :=
    List.count_eq_zero.2 (pipe_notin_safeName s.name)
  have h2 : (s.address.take 8).count '|' = 0 :=
    List.count_eq_zero.2 (fun h => ha ((List.take_sublist _ _).mem h))
  have h3 : (explorerLink s.address).count '|' = 0 := by
    rw [explorerLink, List.count_append, List.count_eq_zero.2 ha]
    decide
  rw [renderRow]
  simp only [List.count_append]
  rw [h1, h2, h3, List.count_eq_zero.2 (pipe_notin_toFixed4 s.balance),
    List.count_eq_zero.2 (pipe_notin_statusStr s.status),
    List.count_eq_zero.2 (pipe_notin_dateStr s.first_seen hd)]
  decide

/-- A concrete entry whose name contains pipes and padding spaces. -/
def entPipe : ScamContract :=
  { address := "0x9171134263d7".toList
    chain := "ethereum".toList
    balance := 45
    name := " x|x|game ".toList
    first_seen := "2025-12-04T10:00:00.000Z".toList
    last_updated := "2025-12-05T10:00:00.000Z".toList
    status := .ACTIVE }

/-- Witness for C10 at a concrete entry with a pipe-laden name. -/
theorem renderRow_cells_witness :
    '|' ∉ safeName entPipe.name ∧ (renderRow entPipe).count '|' = 6 :=
  renderRow_cells entPipe (by decide) (by decide)

example : safeName entPipe.name = "x-x-game".toList := by decide
